import Mathlib

/-!
Verification development for the COWNotifier post-to-markup pipeline
(`newsparser.py`).  Python strings are modelled as `List Char` (Python
strings are sequences of code points); machine-level behaviour such as
`str.find` returning `-1` and Python's clamping slice semantics is
embedded explicitly.  Fallible steps are modelled with `Option`/`Except`.
-/

deriving instance DecidableEq for Except

/-- A Python string: a sequence of code points. -/
abbrev Str := List Char

/-- `isPre p l` is true when `p` is an initial segment of `l`
(the check behind Python's `str.startswith`). -/
def isPre : Str → Str → Bool
  | [], _ => true
  | _ :: _, [] => false
  | a :: as, b :: bs => a = b && isPre as bs

/-- Index of the leftmost occurrence of `pat` in `hay`
(Python `str.find` before the `-1` encoding). -/
def listFind : Str → Str → Option Nat
  | [], pat => if pat = [] then some 0 else none
  | c :: cs, pat =>
    if isPre pat (c :: cs) then some 0
    else (listFind cs pat).map (· + 1)

/-- Python `str.find`: leftmost occurrence or `-1`. -/
def pyFind (hay pat : Str) : Int :=
  match listFind hay pat with
  | some i => (i : Int)
  | none => -1

/-- Normalise a Python slice endpoint for a string of length `n`:
negative indices count from the end, then the result is clamped to `[0, n]`. -/
def pyIdx (n : Nat) (i : Int) : Nat :=
  min (if i < 0 then i + (n : Int) else i).toNat n

/-- Python slice `s[i:j]`. -/
def pySlice (s : Str) (i j : Int) : Str :=
  (s.take (pyIdx s.length j)).drop (pyIdx s.length i)

/-- `isPlusOne` (newsparser.py line 10-11):
`msg.startswith("+1") and len(msg) < 10`. -/
def isPlusOne (msg : Str) : Bool :=
  isPre "+1".data msg && decide (msg.length < 10)

/-! ## DateFormatter (`getHumanReadableDate`, newsparser.py lines 14-29)

`datetime.strptime`/`strftime` and `timedelta` are stdlib; they are
embedded below at the level of proleptic-Gregorian calendar arithmetic.
The function's own comment documents its `date` argument as a pair of
the raw timestamp and a two-element list `[hours, minutes]`; since
Python is dynamically typed the second component is modelled as a sum of
the two runtime shapes that matter (an `int` or a `list`). -/

/-- The runtime value passed to `timedelta(hours=...)`. -/
inductive PyIntOrList where
  | int : Int → PyIntOrList
  | list : List Int → PyIntOrList
deriving DecidableEq

/-- CPython's `timedelta(hours=x)` accepts `int`/`float` components and
raises `TypeError` for anything else (in particular for a `list`). -/
def timedeltaHours : PyIntOrList → Except Str Int
  | .int n => .ok n
  | .list _ => .error "TypeError: unsupported type for timedelta hours component: list".data

/-- A naive `datetime.datetime` (no timezone). -/
structure DT where
  year : Nat
  month : Nat
  day : Nat
  hour : Nat
  minute : Nat
  second : Nat
deriving DecidableEq

/-- Read exactly four decimal digits (strptime `%Y`). -/
def read4 : Str → Option (Nat × Str)
  | a :: b :: c :: d :: rest =>
    if a.isDigit && b.isDigit && c.isDigit && d.isDigit then
      some ((((a.toNat - 48) * 10 + (b.toNat - 48)) * 10 + (c.toNat - 48)) * 10
              + (d.toNat - 48), rest)
    else none
  | _ => none

/-- Read one or two decimal digits, greedily (strptime `%m`, `%d`, `%H`,
`%M`, `%S`; with a non-digit delimiter following, greedy matching agrees
with the backtracking regex). -/
def read12 : Str → Option (Nat × Str)
  | [] => none
  | [a] => if a.isDigit then some (a.toNat - 48, []) else none
  | a :: b :: rest =>
    if a.isDigit then
      if b.isDigit then some ((a.toNat - 48) * 10 + (b.toNat - 48), rest)
      else some (a.toNat - 48, b :: rest)
    else none

/-- Consume one expected literal character. -/
def expectC (c : Char) : Str → Option Str
  | x :: xs => if x = c then some xs else none
  | [] => none

/-- Proleptic-Gregorian leap year. -/
def isLeap (y : Nat) : Bool :=
  (y % 4 = 0 && ¬ y % 100 = 0) || y % 400 = 0

/-- Days in a month. -/
def daysInMonth (y m : Nat) : Nat :=
  if m = 2 then (if isLeap y then 29 else 28)
  else if m = 4 ∨ m = 6 ∨ m = 9 ∨ m = 11 then 30 else 31

/-- `datetime.strptime(s, "%Y-%m-%dT%H:%M:%S")`: parse and range-check.
(`datetime` also rejects leap seconds that the `%S` regex admits, so the
combined effect is `second ≤ 59`.) -/
def strptimeYmdHMS (s : Str) : Option DT := do
  let (y, s) ← read4 s
  let s ← expectC '-' s
  let (mo, s) ← read12 s
  let s ← expectC '-' s
  let (d, s) ← read12 s
  let s ← expectC 'T' s
  let (h, s) ← read12 s
  let s ← expectC ':' s
  let (mi, s) ← read12 s
  let s ← expectC ':' s
  let (se, s) ← read12 s
  if s = [] ∧ 1 ≤ y ∧ 1 ≤ mo ∧ mo ≤ 12 ∧ 1 ≤ d ∧ d ≤ daysInMonth y mo
      ∧ h ≤ 23 ∧ mi ≤ 59 ∧ se ≤ 59 then
    some ⟨y, mo, d, h, mi, se⟩
  else none

/-- Day count of a civil date, measured from 0000-03-01
(valid for all dates from year 1 on). -/
def daysFromCivil (y m d : Nat) : Nat :=
  let y' := if m ≤ 2 then y - 1 else y
  let era := y' / 400
  let yoe := y' % 400
  let mp := (m + 9) % 12
  let doy := (153 * mp + 2) / 5 + d - 1
  let doe := yoe * 365 + yoe / 4 - yoe / 100 + doy
  era * 146097 + doe

/-- Inverse of `daysFromCivil`. -/
def civilFromDays (z : Nat) : Nat × Nat × Nat :=
  let era := z / 146097
  let doe := z % 146097
  let yoe := (doe - doe / 1460 + doe / 36524 - doe / 146096) / 365
  let y := yoe + era * 400
  let doy := doe - (365 * yoe + yoe / 4 - yoe / 100)
  let mp := (5 * doy + 2) / 153
  let d := doy - (153 * mp + 2) / 5 + 1
  let m := if mp < 10 then mp + 3 else mp - 9
  (if m ≤ 2 then y + 1 else y, m, d)

/-- `dt + timedelta(hours=h)`. -/
def addHours (dt : DT) (h : Int) : DT :=
  let total : Int := ((daysFromCivil dt.year dt.month dt.day : Nat) : Int) * 86400
      + (dt.hour : Int) * 3600 + (dt.minute : Int) * 60 + (dt.second : Int) + h * 3600
  let days := (total.ediv 86400).toNat
  let sod := (total.emod 86400).toNat
  let c := civilFromDays days
  ⟨c.1, c.2.1, c.2.2, sod / 3600, sod / 60 % 60, sod % 60⟩

/-- Zero-padded two-digit field. -/
def pad2 (n : Nat) : Str :=
  if n < 10 then '0' :: (Nat.repr n).data else (Nat.repr n).data

/-- C-locale `%b` month abbreviations. -/
def monthAbbrev : Nat → Str
  | 1 => "Jan".data
  | 2 => "Feb".data
  | 3 => "Mar".data
  | 4 => "Apr".data
  | 5 => "May".data
  | 6 => "Jun".data
  | 7 => "Jul".data
  | 8 => "Aug".data
  | 9 => "Sep".data
  | 10 => "Oct".data
  | 11 => "Nov".data
  | 12 => "Dec".data
  | _ => []

/-- `strftime("%d %b %Y, %H:%M:%S")` (years of our inputs have four
digits, so `%Y` needs no padding). -/
def strftimeHuman (dt : DT) : Str :=
  pad2 dt.day ++ (' ' :: monthAbbrev dt.month) ++ (' ' :: (Nat.repr dt.year).data)
    ++ (',' :: ' ' :: pad2 dt.hour) ++ (':' :: pad2 dt.minute) ++ (':' :: pad2 dt.second)

/-- `getHumanReadableDate` (newsparser.py lines 14-29):
`strptime(rawDate.split('.')[0], "%Y-%m-%dT%H:%M:%S") + timedelta(hours=localTimezone)`
then `strftime("%d %b %Y, %H:%M:%S")`.  Note that the whole second
component of `date` is passed as the `hours` argument of `timedelta`. -/
def getHumanReadableDate (date : Str × PyIntOrList) : Except Str Str :=
  let rawDate := date.1
  match strptimeYmdHMS (rawDate.takeWhile (· ≠ '.')) with
  | none => .error "ValueError: time data does not match format".data
  | some dt =>
    match timedeltaHours date.2 with
    | .error e => .error e
    | .ok h => .ok (strftimeHuman (addHours dt h))

/-! ## MarkupTranscoder (`articleParser`, newsparser.py lines 32-95)

The stdlib `HTMLParser` tokenizer (constructed with
`convert_charrefs=False`) turns the raw HTML into a stream of events in
document order; the embedding works at that event level, following the
spec's Token data model.  The parser state after `reset()` is the `fed`
buffer; the strings it accumulates are kept structured as `Frag`ments
(open tag / close tag / plain fragment) whose `render`ings are exactly
the strings the source appends. -/

/-- One `HTMLParser` event. -/
inductive Tok where
  | start : Str → List (Str × Str) → Tok
  | endT : Str → Tok
  | txt : Str → Tok
  | ent : Str → Tok
deriving DecidableEq

/-- One entry of the `fed` buffer. -/
inductive Frag where
  | tagOpen : Str → Str → Frag
  | tagClose : Str → Frag
  | raw : Str → Frag
deriving DecidableEq

/-- The string the source appends for this `fed` entry. -/
def Frag.render : Frag → Str
  | .tagOpen n a => ('<' :: (n ++ a)) ++ ['>']
  | .tagClose n => ('<' :: '/' :: n) ++ ['>']
  | .raw s => s

/-- Tags supported by Telegram (class attribute `supported_tags`). -/
def supported_tags : List Str :=
  ["strike".data, "i".data, "strong".data, "b".data, "pre".data, "ins".data,
   "a".data, "code".data, "del".data, "s".data, "em".data, "u".data]

/-- Useful attributes to look for (class attribute `useful_attrs`). -/
def useful_attrs : List Str := ["href".data, "title".data, "class".data]

/-- html_tag -> telegram_tag mapping (class attribute `tag_mapping`). -/
def tag_mapping (t : Str) : Option Str :=
  if t = "h1".data then some "b".data
  else if t = "h2".data then some "b".data
  else if t = "h3".data then some "b".data
  else if t = "blockquote".data then some "i".data
  else none

/-- The dict comprehension
`{at[0]: at[1] for at in attrs if at[0] in useful_attrs}`. -/
def mkTagAttrs (attrs : List (Str × Str)) : List (Str × Str) :=
  attrs.filter (fun p => useful_attrs.contains p.1)

/-- Lookup in the comprehension-built dict: on duplicate keys the later
pair wins, as in a Python dict comprehension. -/
def dictFind (d : List (Str × Str)) (k : Str) : Option Str :=
  (d.reverse.find? (fun p => p.1 = k)).map (·.2)

/-- Python `dict.get(k, dflt)`. -/
def dictGet (d : List (Str × Str)) (k dflt : Str) : Str :=
  (dictFind d k).getD dflt

/-- The tag decision taken by `handle_starttag` (lines 69-72):
`ptag = tag; if ptag not in supported_tags: ptag = tag_mapping.get(ptag, None)`. -/
def startTagDecision (tag : Str) : Option Str :=
  if supported_tags.contains tag then some tag else tag_mapping tag

/-- The tag decision taken by `handle_endtag` (lines 89-90); the source
duplicates the logic of the start-tag handler. -/
def endTagDecision (tag : Str) : Option Str :=
  if supported_tags.contains tag then some tag else tag_mapping tag

/-- `handle_entityref` (lines 63-65): keep `&name;` escaped. -/
def handle_entityref (fed : List Frag) (name : Str) : List Frag :=
  fed ++ [Frag.raw (('&' :: name) ++ [';'])]

/-- `handle_starttag` (lines 67-81).  The emoji table
(`emoji_codepoints.emoji`, an external import) is a parameter. -/
def handle_starttag (table : Str → Option Str) (fed : List Frag)
    (tag : Str) (attrs : List (Str × Str)) : List Frag :=
  let tag_attrs := mkTagAttrs attrs
  let fed :=
    match startTagDecision tag with
    | some ptag =>
      let attr_str :=
        if tag = "a".data then
          " href=\"".data ++ dictGet tag_attrs "href".data [] ++ "\"".data
        else []
      fed ++ [Frag.tagOpen ptag attr_str]
    | none => fed
  if tag = "img".data ∧ dictGet tag_attrs "class".data [] = "emoji".data then
    fed ++ [Frag.raw ((table (dictGet tag_attrs "title".data ":cow:".data)).getD [])]
  else fed

/-- `handle_data` (lines 83-84). -/
def handle_data (fed : List Frag) (s : Str) : List Frag :=
  fed ++ [Frag.raw s]

/-- `handle_endtag` (lines 86-92). -/
def handle_endtag (fed : List Frag) (tag : Str) : List Frag :=
  match endTagDecision tag with
  | some t => fed ++ [Frag.tagClose t]
  | none => fed

/-- Dispatch one event to its handler. -/
def feedTok (table : Str → Option Str) (fed : List Frag) : Tok → List Frag
  | .start t a => handle_starttag table fed t a
  | .endT t => handle_endtag fed t
  | .txt s => handle_data fed s
  | .ent n => handle_entityref fed n

/-- `feed`: process the event stream in document order. -/
def feed (table : Str → Option Str) (fed : List Frag) (ts : List Tok) : List Frag :=
  ts.foldl (feedTok table) fed

/-- `get_data` (lines 94-95): `"".join(self.fed)`. -/
def get_data (fed : List Frag) : Str :=
  (fed.map Frag.render).flatten

/-- Transcode a whole event stream with a fresh parser. -/
def transcode (table : Str → Option Str) (ts : List Tok) : Str :=
  get_data (feed table [] ts)

/-! ## LinkCorrelator (`newsArticle.parseLinks`, newsparser.py lines 135-169)

The method scans the markdown `msg` with
`re.finditer(r"!\[([^\]]*)\]\(([^\)]*)\)", msg)` and, for each match,
destructively consumes `self.raw_html` with `str.find`/slicing.  Both
character classes of the regex exclude their closing delimiter, so
matching is deterministic; `finditer` yields leftmost, non-overlapping
matches.  The match scan does not depend on `self.raw_html`, so it is
embedded as a splitting pass (`mdSplit`) followed by the loop body
(`parseLinksGo`), which threads `self.raw_html` explicitly and returns
its final value alongside `parsed`. -/

/-- The literal `img_tag = '<img src="'` (line 142). -/
def imgTag : Str := "<img src=\"".data

/-- Split at the first occurrence of `c`: the part before it and the
part after it. -/
def splitUntil (c : Char) : Str → Option (Str × Str)
  | [] => none
  | x :: xs =>
    if x = c then some ([], xs)
    else (splitUntil c xs).map (fun p => (x :: p.1, p.2))

/-- Try the regex at the current position: `![`, the `alt` capture (no
`]`), `](`, the url capture (no `)`), `)`.  Returns the captures and the
remainder after the match. -/
def matchHere : Str → Option (Str × Str × Str)
  | '!' :: '[' :: rest =>
    match splitUntil ']' rest with
    | some (alt, rest2) =>
      match rest2 with
      | '(' :: rest3 =>
        match splitUntil ')' rest3 with
        | some (url, rest4) => some (alt, url, rest4)
        | none => none
      | _ => none
    | none => none
  | _ => none

/-- Leftmost match: the unmatched text before it, the two captures, and
the remainder after the match. -/
def findMatchL : Str → Option (Str × Str × Str × Str)
  | [] => none
  | x :: xs =>
    match matchHere (x :: xs) with
    | some (alt, url, rest) => some ([], alt, url, rest)
    | none =>
      (findMatchL xs).map (fun r => (x :: r.1, r.2.1, r.2.2.1, r.2.2.2))

/-- All matches of the pattern, scanned left to right without
rescanning (the `finditer` loop), with the trailing unmatched text.
Fuelled so that it evaluates in the kernel: every match consumes at
least five characters, so fuel `msg.length + 1` is never exhausted. -/
def mdSplitF : Nat → Str → List (Str × Str × Str) × Str
  | 0, msg => ([], msg)
  | fuel + 1, msg =>
    match findMatchL msg with
    | none => ([], msg)
    | some (pre, alt, url, rest) =>
      let r := mdSplitF fuel rest
      ((pre, alt, url) :: r.1, r.2)

/-- The markdown split used by `parseLinks`. -/
def mdSplit (msg : Str) : List (Str × Str × Str) × Str :=
  mdSplitF (msg.length + 1) msg

/-- Lines 154-159: find the first img link in the html and discard the
used part.
```
html_link_start = self.raw_html.find(img_tag) + len(img_tag)
html_link_len = self.raw_html[html_link_start:].find('"')
html_link = self.raw_html[html_link_start:html_link_start + html_link_len]
self.raw_html = self.raw_html[html_link_start + html_link_len:]
```
-/
def consumeHtmlLink (raw_html : Str) : Str × Str :=
  let html_link_start : Int := pyFind raw_html imgTag + (imgTag.length : Int)
  let html_link_len : Int :=
    pyFind (pySlice raw_html html_link_start raw_html.length) ['"']
  (pySlice raw_html html_link_start (html_link_start + html_link_len),
   pySlice raw_html (html_link_start + html_link_len) raw_html.length)

/-- The `for m in pattern.finditer(msg)` loop body (lines 147-168),
one iteration per precomputed match; returns `(parsed, raw_html)`. -/
def parseLinksGo : Str → Nat → List (Str × Str × Str) → Str → Str × Str
  | raw_html, _, [], trailing => (trailing, raw_html)
  | raw_html, link_counter, (pre, link_name, _) :: ms, trailing =>
    let name :=
      if link_name = [] then "Link ".data ++ (Nat.repr link_counter).data
      else link_name
    let r := consumeHtmlLink raw_html
    let rest := parseLinksGo r.2 (link_counter + 1) ms trailing
    (pre ++ ('[' :: name) ++ (']' :: '(' :: r.1) ++ (')' :: rest.1), rest.2)

/-- `parseLinks` (lines 135-169) with the `self.raw_html` state passed
and returned explicitly. -/
def parseLinks (raw_html msg : Str) : Str × Str :=
  let p := mdSplit msg
  parseLinksGo raw_html 1 p.1 p.2

/-- The image-source URLs of an HTML body, in document order: for each
occurrence of `<img src="` the text up to the next `"`; the scan resumes
at that quote.  (An unterminated source contributes no URL.)  Fuelled so
that it evaluates in the kernel: every step consumes at least ten
characters, so fuel `s.length` is never exhausted. -/
def imgUrlsF : Nat → Str → List Str
  | 0, _ => []
  | fuel + 1, s =>
    match listFind s imgTag with
    | none => []
    | some i =>
      let rest := s.drop (i + imgTag.length)
      match listFind rest ['"'] with
      | none => []
      | some j => rest.take j :: imgUrlsF fuel (rest.drop j)

/-- The ordered queue of image-source URLs (spec §4.4 / §3
ImageReference). -/
def imgUrls (s : Str) : List Str :=
  imgUrlsF s.length s

/-- Specification-side correlation (spec §4.4): for the i-th placeholder
(1-indexed) the display name is the alt text if non-empty, else
`Link i`; the next unconsumed URL is popped from the queue; the
placeholder becomes `[displayName](poppedURL)`; trailing markdown is
appended after the final replacement. -/
def specCorrelate : List Str → Nat → List (Str × Str × Str) → Str → Str
  | _, _, [], trailing => trailing
  | urls, i, (pre, alt, _) :: ms, trailing =>
    let name := if alt = [] then "Link ".data ++ (Nat.repr i).data else alt
    pre ++ ('[' :: name) ++ (']' :: '(' :: urls.headD [])
      ++ (')' :: specCorrelate urls.tail (i + 1) ms trailing)

/-! ## ArticleAssembler (`newsArticle`, newsparser.py lines 98-188)

The article's raw HTML enters the render step through the stdlib
tokenizer, so it is carried as the event stream `raw_html : List Tok`
(the correlator above, which is commented out in `parseMessage`, reads
the character-level body instead and is kept standalone).  The mention
manager is an external collaborator: a capability that may fail with an
arbitrary error type `ε`; it is the only fallible step inside the
`try` block of `parseMessage`, where the header builder and the
transcoder are total.  Methods that mutate `self` return the new state
explicitly. -/

/-- `html.escape` with `quote=True` (the default), one character at a
time; the five rewrites are independent, so the per-character map equals
the stdlib's sequential `str.replace` passes. -/
def escChar (c : Char) : Str :=
  if c = '&' then "&amp;".data
  else if c = '<' then "&lt;".data
  else if c = '>' then "&gt;".data
  else if c = '"' then "&quot;".data
  else if c = '\'' then "&#x27;".data
  else [c]

/-- `html.escape` on a whole string. -/
def htmlEscape (s : Str) : Str :=
  (s.map escChar).flatten

/-- The `newsArticle` state after construction (`__init__`,
lines 100-112): raw fields plus the lazy caches `content` and
`is_plus_one` and the `broken` flag. -/
structure newsArticle (ε : Type) where
  author_username : Str
  author_displayname : Str
  topic : Str
  subject : Str
  date : Str
  raw_msg : Str
  raw_html : List Tok
  mention_manager : Str → Str → Except ε Unit
  broken : Bool
  content : Option Str
  is_plus_one : Option Bool

/-- Method `isPlusOne` (lines 114-117): classify once and cache.  (The
`M` suffix avoids shadowing the module-level `isPlusOne` it calls.) -/
def newsArticle.isPlusOneM (a : newsArticle ε) : Bool × newsArticle ε :=
  match a.is_plus_one with
  | none => (isPlusOne a.raw_msg, { a with is_plus_one := some (isPlusOne a.raw_msg) })
  | some v => (v, a)

/-- `makeHeader` (lines 127-133). -/
def newsArticle.makeHeader (a : newsArticle ε) : Str × newsArticle ε :=
  let r := a.isPlusOneM
  let hdr :=
    "From: ".data ++ a.author_username ++ ('(' :: a.author_displayname)
      ++ (')' :: '\r' :: '\n' :: [])
      ++ "Newsgroup: ".data ++ a.topic ++ ('\r' :: '\n' :: [])
      ++ "Subject: ".data ++ a.subject ++ ('\r' :: '\n' :: [])
      ++ "Date: ".data ++ a.date ++ ('\r' :: '\n' :: [])
      ++ "is_plus_one: ".data ++ (if r.1 then "True".data else "False".data)
  ("<code>".data ++ htmlEscape hdr ++ "</code>\n\n".data, r.2)

/-- `parseMessage` (lines 171-188): no-op when already broken; build the
header, transcode the body, delegate to the mention manager; on success
cache the content, and catch any raised error at the boundary, marking
the article broken instead of re-raising. -/
def newsArticle.parseMessage (table : Str → Option Str) (a : newsArticle ε) :
    newsArticle ε :=
  if a.broken then a
  else
    let hp := a.makeHeader
    let content := transcode table hp.2.raw_html
    match hp.2.mention_manager content hp.2.topic with
    | .ok _ => { hp.2 with content := some (hp.1 ++ content) }
    | .error _ => { hp.2 with broken := true }

/-- `getAsHtml` (lines 119-122): parse on first request, then return the
cached content (absent when broken). -/
def newsArticle.getAsHtml (table : Str → Option Str) (a : newsArticle ε) :
    Option Str × newsArticle ε :=
  let a' := if a.content = none then a.parseMessage table else a
  (a'.content, a')

/-! ## Auxiliary notions used by the stated properties -/

/-- The open/close tag events contributed by one `fed` entry. -/
def Frag.ev : Frag → List (Bool × Str)
  | .tagOpen n _ => [(true, n)]
  | .tagClose n => [(false, n)]
  | .raw _ => []

/-- The open/close tag events of a `fed` buffer, in document order. -/
def evs (fed : List Frag) : List (Bool × Str) :=
  (fed.map Frag.ev).flatten

/-- A sequence of open/close tag events is exactly balanced (a Dyck
word over tag names). -/
inductive BalancedTags : List (Bool × Str) → Prop where
  | nil : BalancedTags []
  | node {n : Str} {ws rest : List (Bool × Str)} :
      BalancedTags ws → BalancedTags rest →
      BalancedTags ((true, n) :: ws ++ (false, n) :: rest)

/-- A validly nested fragment of the tokenized input HTML: every start
tag is closed by a matching end tag around its well-nested body. -/
inductive WellNested : List Tok → Prop where
  | nil : WellNested []
  | txt {s : Str} {ts : List Tok} : WellNested ts → WellNested (Tok.txt s :: ts)
  | ent {s : Str} {ts : List Tok} : WellNested ts → WellNested (Tok.ent s :: ts)
  | node {t : Str} {a : List (Str × Str)} {body rest : List Tok} :
      WellNested body → WellNested rest →
      WellNested (Tok.start t a :: body ++ Tok.endT t :: rest)

/-! ## Fixtures used by witnesses and counterexamples -/

/-- An emoji table with no entries at all. -/
def tableNone : Str → Option Str := fun _ => none

/-- An emoji table that maps exactly the default key `:cow:`. -/
def cowTable : Str → Option Str :=
  fun k => if k = ":cow:".data then some "C".data else none

/-! ## Helper lemmas -/

theorem isPre_iff_take : ∀ (p l : Str), isPre p l = true ↔ l.take p.length = p
  | [], l => by simp [isPre]
  | _ :: _, [] => by simp [isPre]
  | a :: as, b :: bs => by
    simp only [isPre, Bool.and_eq_true, decide_eq_true_eq, List.length_cons,
      List.take_succ_cons, List.cons.injEq]
    rw [isPre_iff_take as bs]
    constructor
    · rintro ⟨h1, h2⟩; exact ⟨h1.symm, h2⟩
    · rintro ⟨h1, h2⟩; exact ⟨h1.symm, h2⟩

theorem isPre_length {p l : Str} (h : isPre p l = true) : p.length ≤ l.length := by
  have ht := (isPre_iff_take p l).1 h
  have := congrArg List.length ht
  simp [List.length_take] at this
  omega

theorem listFind_isPre : ∀ {l : Str} {pat : Str} {i : Nat},
    listFind l pat = some i → isPre pat (l.drop i) = true := by
  intro l
  induction l with
  | nil =>
    intro pat i h
    simp only [listFind] at h
    split at h
    · rename_i hp
      cases h
      simp [hp, isPre]
    · cases h
  | cons c cs ih =>
    intro pat i h
    simp only [listFind] at h
    split at h
    · cases h
      simpa using ‹isPre pat (c :: cs) = true›
    · cases hfind : listFind cs pat with
      | none => rw [hfind] at h; cases h
      | some i' =>
        rw [hfind] at h
        simp at h
        subst h
        simpa using ih hfind

theorem listFind_le : ∀ {l : Str} {pat : Str} {i : Nat},
    listFind l pat = some i → i ≤ l.length := by
  intro l
  induction l with
  | nil =>
    intro pat i h
    simp only [listFind] at h
    split at h
    · cases h; simp
    · cases h
  | cons c cs ih =>
    intro pat i h
    simp only [listFind] at h
    split at h
    · cases h; simp
    · cases hfind : listFind cs pat with
      | none => rw [hfind] at h; cases h
      | some i' =>
        rw [hfind] at h
        simp at h
        subst h
        have := ih hfind
        simp
        omega

theorem listFind_bound {l pat : Str} {i : Nat} (h : listFind l pat = some i) :
    i + pat.length ≤ l.length := by
  have h1 := isPre_length (listFind_isPre h)
  have h2 := listFind_le h
  rw [List.length_drop] at h1
  omega

theorem listFind_none_drop : ∀ {l : Str} {pat : Str} (k : Nat),
    listFind l pat = none → listFind (l.drop k) pat = none := by
  intro l pat k
  induction k generalizing l with
  | zero => intro h; simpa using h
  | succ k ih =>
    intro h
    cases l with
    | nil => simpa using h
    | cons c cs =>
      simp only [listFind] at h
      split at h
      · cases h
      · cases hfind : listFind cs pat with
        | none => exact ih hfind
        | some i' => rw [hfind] at h; simp at h

theorem take_drop_nil {l : Str} {i j : Nat} (h : j ≤ i) : (l.take j).drop i = [] := by
  apply List.drop_eq_nil_of_le
  have := List.length_take j l
  omega

theorem take_add_drop (l : Str) (a b : Nat) :
    (l.take (a + b)).drop a = (l.drop a).take b := by
  induction l generalizing a with
  | nil => simp
  | cons x xs ih =>
    cases a with
    | zero => simp
    | succ a => simpa [Nat.succ_add] using ih a




theorem feedTok_fed (table : Str → Option Str) (fed : List Frag) (t : Tok) :
    feedTok table fed t = fed ++ feedTok table [] t := by
  cases t with
  | start tag attrs =>
    simp only [feedTok, handle_starttag]
    cases startTagDecision tag <;> split <;> simp
  | endT tag =>
    simp only [feedTok, handle_endtag]
    cases endTagDecision tag <;> simp
  | txt s => simp [feedTok, handle_data]
  | ent n => simp [feedTok, handle_entityref]

theorem feed_fed (table : Str → Option Str) (fed : List Frag) (ts : List Tok) :
    feed table fed ts = fed ++ feed table [] ts := by
  induction ts generalizing fed with
  | nil => simp [feed]
  | cons t ts ih =>
    have h1 : feed table fed (t :: ts) = feed table (feedTok table fed t) ts := rfl
    have h2 : feed table [] (t :: ts) = feed table (feedTok table [] t) ts := rfl
    rw [h1, h2, ih, ih (feedTok table [] t), feedTok_fed, List.append_assoc]

theorem feed_cons (table : Str → Option Str) (t : Tok) (ts : List Tok) :
    feed table [] (t :: ts) = feedTok table [] t ++ feed table [] ts := by
  rw [feed, List.foldl_cons, ← feed, feed_fed]

theorem feed_append (table : Str → Option Str) (ts1 ts2 : List Tok) :
    feed table [] (ts1 ++ ts2) = feed table [] ts1 ++ feed table [] ts2 := by
  rw [feed, List.foldl_append, ← feed, ← feed, feed_fed]

theorem get_data_append (f1 f2 : List Frag) :
    get_data (f1 ++ f2) = get_data f1 ++ get_data f2 := by
  simp [get_data]

theorem evs_append (f1 f2 : List Frag) : evs (f1 ++ f2) = evs f1 ++ evs f2 := by
  simp [evs]

theorem BalancedTags.append {xs ys : List (Bool × Str)}
    (hx : BalancedTags xs) (hy : BalancedTags ys) : BalancedTags (xs ++ ys) := by
  induction hx with
  | nil => simpa
  | @node n ws rest hw hr ihw ihr =>
    have heq : ((true, n) :: ws ++ (false, n) :: rest) ++ ys
        = (true, n) :: ws ++ (false, n) :: (rest ++ ys) := by simp
    rw [heq]
    exact BalancedTags.node hw ihr

/-- Claim C3: the spec expects the DateFormatter, fed the documented pair
of raw timestamp and two-field offset, to add the offset's hours field
and format the result (e.g. `03 Feb 2020, 21:30:00`).  The code passes
the entire offset value as `timedelta`'s `hours` argument, which raises
`TypeError` for the documented list-shaped offset; only an integer
offset produces the expected string. -/
theorem getHumanReadableDate_offset_bug :
    getHumanReadableDate ("2020-02-03T18:30:00.000Z".data, PyIntOrList.list [3, 0])
        = .error "TypeError: unsupported type for timedelta hours component: list".data
    ∧ getHumanReadableDate ("2020-02-03T18:30:00.000Z".data, PyIntOrList.int 3)
        = .ok "03 Feb 2020, 21:30:00".data := by decide

/-- Claim C9: the plus-one classification is true exactly when the raw
body starts with `+1` and is shorter than 10 characters; the three
example bodies classify as the spec states; and once an article has
classified, later calls return the cached value and leave the state
unchanged, even if the raw body is mutated in between. -/
theorem isPlusOne_spec (ε : Type) :
    (∀ msg : Str, isPlusOne msg = true ↔ (msg.take 2 = "+1".data ∧ msg.length < 10))
    ∧ isPlusOne "+1".data = true
    ∧ isPlusOne "+1 agreed more".data = false
    ∧ isPlusOne "-1 disagree".data = false
    ∧ ∀ (a : newsArticle ε) (m : Str),
        ({ a.isPlusOneM.2 with raw_msg := m } : newsArticle ε).isPlusOneM
          = (a.isPlusOneM.1, { a.isPlusOneM.2 with raw_msg := m }) := by
  refine ⟨?_, by decide, by decide, by decide, ?_⟩
  · intro msg
    have h := isPre_iff_take "+1".data msg
    have hlen : ("+1".data : Str).length = 2 := by decide
    rw [hlen] at h
    rw [isPlusOne, Bool.and_eq_true, decide_eq_true_eq, h]
  · intro a m
    cases h : a.is_plus_one <;>
      simp [newsArticle.isPlusOneM, h]

/-- Claim C8: a character entity reference anywhere in the token stream
is emitted verbatim as `&name;` in place, never decoded. -/
theorem entityref_preserved (table : Str → Option Str) (ts1 ts2 : List Tok) (n : Str) :
    transcode table (ts1 ++ Tok.ent n :: ts2)
      = transcode table ts1 ++ (('&' :: n) ++ [';']) ++ transcode table ts2 := by
  have hmid : Tok.ent n :: ts2 = [Tok.ent n] ++ ts2 := rfl
  rw [transcode, hmid, ← List.append_assoc, feed_append, feed_append,
    get_data_append, get_data_append]
  simp [transcode, feed, feedTok, handle_entityref, get_data, Frag.render]

/-- Claim C10: the output tag for an `a` start tag always carries an
`href` attribute — its value is the dict lookup of `href` with default
empty, so an anchor without `href` is emitted as `<a href="">`, never as
a bare `<a>`. -/
theorem anchor_href_always (table : Str → Option Str) (fed : List Frag)
    (attrs : List (Str × Str)) :
    ∃ v, handle_starttag table fed "a".data attrs
        = fed ++ [Frag.tagOpen "a".data (" href=\"".data ++ v ++ "\"".data)]
      ∧ v = dictGet (mkTagAttrs attrs) "href".data []
      ∧ (dictFind (mkTagAttrs attrs) "href".data = none → v = []) := by
  refine ⟨dictGet (mkTagAttrs attrs) "href".data [], ?_, rfl, ?_⟩
  · have hdec : startTagDecision "a".data = some "a".data := by decide
    have himg : ("a".data : Str) = "img".data ↔ False := by simp
    simp [handle_starttag, hdec, himg]
  · intro h
    simp [dictGet, h]

theorem anchor_href_always_witness :
    handle_starttag tableNone [] "a".data [("class".data, "x".data)]
      = [Frag.tagOpen "a".data " href=\"\"".data] := by
  obtain ⟨v, h1, _, h3⟩ := anchor_href_always tableNone [] [("class".data, "x".data)]
  rw [h3 (by decide)] at h1
  rw [h1]
  decide

/-- Claim C2 counterexample: with an EmojiTable that maps the default key
`:cow:` to the glyph `C` but has no entry for `:smile:`, an emoji image
titled `:smile:` produces the empty string, not the default key's glyph
`C` — so an unrecognized title does not fall back to the default key,
and the empty string is emitted although the default key is mapped. -/
theorem emoji_fallback_cex :
    transcode cowTable
        [Tok.start "img".data [("class".data, "emoji".data), ("title".data, ":smile:".data)]]
      = []
    ∧ cowTable ":cow:".data = some "C".data
    ∧ ("C".data : Str) ≠ ([] : Str) := by decide

/-- Claim C2 (amended): for an `img` start tag whose `class` is `emoji`,
the transcoder emits, in place of the tag, exactly one glyph fragment
and no start or end tag.  When the `title` attribute is absent the
EmojiTable is consulted at the fixed default key `:cow:`; when a `title`
is present the table is consulted at that exact title, and an unmapped
title yields the empty string directly — there is no fallback to the
default key for an unrecognized title. -/
theorem emoji_img_replacement (table : Str → Option Str) (fed : List Frag)
    (attrs : List (Str × Str))
    (hcls : dictGet (mkTagAttrs attrs) "class".data [] = "emoji".data) :
    handle_starttag table fed "img".data attrs
        = fed ++ [Frag.raw ((table (dictGet (mkTagAttrs attrs) "title".data ":cow:".data)).getD [])]
      ∧ (dictFind (mkTagAttrs attrs) "title".data = none →
          handle_starttag table fed "img".data attrs
            = fed ++ [Frag.raw ((table ":cow:".data).getD [])])
      ∧ (∀ t, dictFind (mkTagAttrs attrs) "title".data = some t →
          handle_starttag table fed "img".data attrs
            = fed ++ [Frag.raw ((table t).getD [])])
      ∧ handle_endtag fed "img".data = fed := by
  have hdec : startTagDecision "img".data = none := by decide
  have hmain : handle_starttag table fed "img".data attrs
      = fed ++ [Frag.raw ((table (dictGet (mkTagAttrs attrs) "title".data ":cow:".data)).getD [])] := by
    simp [handle_starttag, hdec, hcls]
  refine ⟨hmain, ?_, ?_, ?_⟩
  · intro h
    rw [hmain]
    simp [dictGet, h]
  · intro t h
    rw [hmain]
    simp [dictGet, h]
  · have hend : endTagDecision "img".data = none := by decide
    simp [handle_endtag, hend]

theorem emoji_img_replacement_witness :
    handle_starttag cowTable [] "img".data [("class".data, "emoji".data)]
      = [Frag.raw "C".data] := by
  have h := (emoji_img_replacement cowTable [] [("class".data, "emoji".data)]
      (by decide)).2.1 (by decide)
  rw [h]
  decide

theorem evs_starttag (table : Str → Option Str) (t : Str) (a : List (Str × Str)) :
    evs (feedTok table [] (Tok.start t a))
      = match startTagDecision t with
        | some p => [(true, p)]
        | none => [] := by
  simp only [feedTok, handle_starttag]
  cases startTagDecision t <;> split <;> simp [evs, Frag.ev]

theorem evs_endtag (table : Str → Option Str) (t : Str) :
    evs (feedTok table [] (Tok.endT t))
      = match startTagDecision t with
        | some p => [(false, p)]
        | none => [] := by
  simp only [feedTok, handle_endtag]
  have h : endTagDecision t = startTagDecision t := rfl
  rw [h]
  cases startTagDecision t <;> simp [evs, Frag.ev]

/-- Claim C6: the end-tag handler takes the same allow-list/mapping
decision as the start-tag handler, so an end tag is emitted exactly when
the start tag was; consequently the output of any validly nested token
stream has exactly balanced open/close tags in document order. -/
theorem transcoder_tag_balance (table : Str → Option Str) :
    (∀ t, endTagDecision t = startTagDecision t)
    ∧ ∀ ts : List Tok, WellNested ts → BalancedTags (evs (feed table [] ts)) := by
  refine ⟨fun _ => rfl, ?_⟩
  intro ts h
  induction h with
  | nil => exact BalancedTags.nil
  | txt h ih =>
    rename_i s ts'
    rw [feed_cons, evs_append]
    have : evs (feedTok table [] (Tok.txt s)) = [] := by
      simp [feedTok, handle_data, evs, Frag.ev]
    rw [this, List.nil_append]
    exact ih
  | ent h ih =>
    rename_i s ts'
    rw [feed_cons, evs_append]
    have : evs (feedTok table [] (Tok.ent s)) = [] := by
      simp [feedTok, handle_entityref, evs, Frag.ev]
    rw [this, List.nil_append]
    exact ih
  | node hb hr ihb ihr =>
    rename_i t a body rest
    rw [feed_append, feed_cons, feed_cons, evs_append, evs_append, evs_append,
      evs_starttag, evs_endtag]
    cases hdec : startTagDecision t with
    | some p =>
      have heq : ([(true, p)] ++ evs (feed table [] body))
            ++ ([(false, p)] ++ evs (feed table [] rest))
          = (true, p) :: evs (feed table [] body)
            ++ (false, p) :: evs (feed table [] rest) := by simp
      rw [heq]
      exact BalancedTags.node ihb ihr
    | none =>
      simpa using BalancedTags.append ihb ihr

theorem transcoder_tag_balance_witness :
    evs (feed tableNone []
        [Tok.start "b".data [], Tok.txt "x".data, Tok.endT "b".data])
      = [(true, "b".data), (false, "b".data)]
    ∧ BalancedTags (evs (feed tableNone []
        [Tok.start "b".data [], Tok.txt "x".data, Tok.endT "b".data])) := by
  refine ⟨by decide, ?_⟩
  apply (transcoder_tag_balance tableNone).2
  show WellNested ((Tok.start "b".data [] :: [Tok.txt "x".data])
      ++ Tok.endT "b".data :: [])
  exact WellNested.node (WellNested.txt WellNested.nil) WellNested.nil

theorem isPlusOneM_proj {ε : Type} (a : newsArticle ε) :
    a.isPlusOneM.2.raw_html = a.raw_html ∧ a.isPlusOneM.2.topic = a.topic
    ∧ a.isPlusOneM.2.mention_manager = a.mention_manager
    ∧ a.isPlusOneM.2.content = a.content ∧ a.isPlusOneM.2.broken = a.broken := by
  cases h : a.is_plus_one <;> simp [newsArticle.isPlusOneM, h]

theorem makeHeader_proj {ε : Type} (a : newsArticle ε) :
    a.makeHeader.2.raw_html = a.raw_html ∧ a.makeHeader.2.topic = a.topic
    ∧ a.makeHeader.2.mention_manager = a.mention_manager
    ∧ a.makeHeader.2.content = a.content ∧ a.makeHeader.2.broken = a.broken := by
  have h := isPlusOneM_proj a
  simp only [newsArticle.makeHeader]
  exact h

/-- `parseMessage` on an unbroken article whose mention delegation fails:
the state becomes broken and the content cache stays as it was. -/
theorem parseMessage_error {ε : Type} (table : Str → Option Str)
    (a : newsArticle ε) (e : ε) (hb : a.broken = false)
    (hm : a.mention_manager (transcode table a.raw_html) a.topic = Except.error e) :
    a.parseMessage table = { a.makeHeader.2 with broken := true } := by
  obtain ⟨h1, h2, h3, _, _⟩ := makeHeader_proj a
  rw [newsArticle.parseMessage, if_neg (by simp [hb])]
  dsimp only
  rw [h1, h2, h3, hm]

/-- Claim C4: when the fallible step inside the render raises, the error
is caught at the assembler boundary: the first content request returns
an absent value, the article transitions to the terminal broken state
with no cached content, and every later content request returns an
absent value and leaves the state unchanged, without raising. -/
theorem render_error_to_broken {ε : Type} (table : Str → Option Str)
    (a : newsArticle ε) (e : ε)
    (hc : a.content = none) (hb : a.broken = false)
    (hm : a.mention_manager (transcode table a.raw_html) a.topic = Except.error e) :
    (a.getAsHtml table).1 = none
    ∧ (a.getAsHtml table).2.broken = true
    ∧ (a.getAsHtml table).2.content = none
    ∧ (a.getAsHtml table).2.getAsHtml table = (none, (a.getAsHtml table).2) := by
  obtain ⟨_, _, _, h4, _⟩ := makeHeader_proj a
  have hpm := parseMessage_error table a e hb hm
  have hget : a.getAsHtml table = ((a.parseMessage table).content, a.parseMessage table) := by
    rw [newsArticle.getAsHtml, if_pos hc]
  have hcontent : (a.parseMessage table).content = none := by
    rw [hpm]; simpa [h4] using hc
  have hbroken : (a.parseMessage table).broken = true := by rw [hpm]
  refine ⟨by rw [hget, hcontent], by rw [hget]; exact hbroken, by rw [hget]; exact hcontent, ?_⟩
  rw [hget]
  rw [newsArticle.getAsHtml, if_pos hcontent, newsArticle.parseMessage, if_pos hbroken,
    hcontent]

def brokenMention : Str → Str → Except Nat Unit := fun _ _ => Except.error 0

def artFail : newsArticle Nat :=
  { author_username := "u".data, author_displayname := "d".data,
    topic := "t".data, subject := "s".data, date := "dt".data,
    raw_msg := "m".data, raw_html := [], mention_manager := brokenMention,
    broken := false, content := none, is_plus_one := none }

theorem render_error_to_broken_witness :
    (artFail.getAsHtml tableNone).1 = none
    ∧ (artFail.getAsHtml tableNone).2.broken = true
    ∧ (artFail.getAsHtml tableNone).2.content = none
    ∧ (artFail.getAsHtml tableNone).2.getAsHtml tableNone
        = (none, (artFail.getAsHtml tableNone).2) := by
  exact render_error_to_broken tableNone artFail 0 rfl rfl rfl

theorem getAsHtml_some {ε : Type} (table : Str → Option Str) (a : newsArticle ε)
    (c : Str) (h : a.content = some c) : a.getAsHtml table = (some c, a) := by
  rw [newsArticle.getAsHtml]
  rw [if_neg (by simp [h]), h]

theorem getAsHtml_none {ε : Type} (table : Str → Option Str) (a : newsArticle ε)
    (hc : a.content = none) :
    a.getAsHtml table = ((a.parseMessage table).content, a.parseMessage table) := by
  rw [newsArticle.getAsHtml]
  rw [if_pos hc]

/-- From an uncached state, a render that leaves the content cache empty
has necessarily marked the article broken. -/
theorem parseMessage_none_broken {ε : Type} (table : Str → Option Str)
    (a : newsArticle ε)
    (h : (a.parseMessage table).content = none) :
    (a.parseMessage table).broken = true := by
  by_cases hb : a.broken = true
  · rw [newsArticle.parseMessage, if_pos hb]
    exact hb
  · obtain ⟨_, _, _, h4, _⟩ := makeHeader_proj a
    rw [newsArticle.parseMessage, if_neg hb] at h ⊢
    dsimp only at h ⊢
    cases hmm : a.makeHeader.2.mention_manager
        (transcode table a.makeHeader.2.raw_html) a.makeHeader.2.topic with
    | ok u => rw [hmm] at h; simp at h
    | error e => rfl

/-- A content request returns exactly the current cache whenever an
empty cache implies the article is broken. -/
theorem getAsHtml_stable {ε : Type} (table : Str → Option Str) (b : newsArticle ε)
    (h : b.content = none → b.broken = true) :
    (b.getAsHtml table).1 = b.content := by
  cases hc : b.content with
  | some c => simp [getAsHtml_some table b c hc]
  | none =>
    rw [getAsHtml_none table b hc]
    dsimp only
    rw [newsArticle.parseMessage, if_pos (h hc), hc]

/-- Claim C5: `parseMessage` is a no-op on a broken article; a content
request on an already parsed article returns the cache unchanged; and
two successive content requests — with the raw HTML field mutated in
between — return the same content (render effectively executes at most
once). -/
theorem render_at_most_once {ε : Type} (table : Str → Option Str)
    (a : newsArticle ε) (newHtml : List Tok) :
    (a.broken = true → a.parseMessage table = a)
    ∧ (∀ c, a.content = some c → a.getAsHtml table = (some c, a))
    ∧ (({ (a.getAsHtml table).2 with raw_html := newHtml } : newsArticle ε).getAsHtml
          table).1
        = (a.getAsHtml table).1 := by
  refine ⟨?_, ?_, ?_⟩
  · intro h
    rw [newsArticle.parseMessage, if_pos h]
  · intro c h
    exact getAsHtml_some table a c h
  · have hpre : (a.getAsHtml table).2.content = none →
        (a.getAsHtml table).2.broken = true := by
      cases hc : a.content with
      | some c =>
        rw [getAsHtml_some table a c hc]
        intro h
        simp [hc] at h
      | none =>
        rw [getAsHtml_none table a hc]
        exact parseMessage_none_broken table a
    exact getAsHtml_stable table
      ({ (a.getAsHtml table).2 with raw_html := newHtml }) hpre

def artBroken : newsArticle Nat := { artFail with broken := true }

def artParsed : newsArticle Nat := { artFail with content := some "x".data }

theorem render_at_most_once_witness :
    artBroken.parseMessage tableNone = artBroken
    ∧ artParsed.getAsHtml tableNone = (some "x".data, artParsed) := by
  exact ⟨(render_at_most_once tableNone artBroken []).1 rfl,
    (render_at_most_once tableNone artParsed []).2.1 "x".data rfl⟩

theorem pyIdx_natCast (n k : Nat) : pyIdx n (k : Int) = min k n := by
  rw [pyIdx, if_neg (by omega)]
  norm_num

theorem pyIdx_ofNat (n k : Nat) (h : k ≤ n) : pyIdx n (k : Int) = k := by
  rw [pyIdx_natCast]
  exact Nat.min_eq_left h

theorem pySlice_take_drop (s : Str) (i j : Nat) (hi : i ≤ s.length) (hj : j ≤ s.length) :
    pySlice s (i : Int) (j : Int) = (s.take j).drop i := by
  rw [pySlice, pyIdx_ofNat _ _ hi, pyIdx_ofNat _ _ hj]

theorem pySlice_from (s : Str) (i : Nat) (hi : i ≤ s.length) :
    pySlice s (i : Int) (s.length : Int) = s.drop i := by
  rw [pySlice_take_drop s i s.length hi le_rfl, List.take_length]

theorem imgUrlsF_irrel : ∀ (f g : Nat) (s : Str), s.length ≤ f → s.length ≤ g →
    imgUrlsF f s = imgUrlsF g s := by
  intro f
  induction f with
  | zero =>
    intro g s hf _
    have hs : s = [] := List.eq_nil_of_length_eq_zero (by omega)
    subst hs
    cases g <;> rfl
  | succ f ih =>
    intro g s hf hg
    cases g with
    | zero =>
      have hs : s = [] := List.eq_nil_of_length_eq_zero (by omega)
      subst hs
      rfl
    | succ g =>
      cases hfind : listFind s imgTag with
      | none => simp only [imgUrlsF, hfind]
      | some i =>
        cases hq : listFind (s.drop (i + imgTag.length)) ['"'] with
        | none => simp only [imgUrlsF, hfind, hq]
        | some j =>
          simp only [imgUrlsF, hfind, hq]
          have hb := listFind_bound hfind
          have h10 : imgTag.length = 10 := rfl
          have hlen : ((s.drop (i + imgTag.length)).drop j).length ≤ s.length - 10 := by
            simp only [List.length_drop]
            omega
          congr 1
          exact ih g ((s.drop (i + imgTag.length)).drop j) (by omega) (by omega)

theorem imgUrls_eq (s : Str) :
    imgUrls s = match listFind s imgTag with
      | none => []
      | some i =>
        match listFind (s.drop (i + imgTag.length)) ['"'] with
        | none => []
        | some j => (s.drop (i + imgTag.length)).take j
            :: imgUrls ((s.drop (i + imgTag.length)).drop j) := by
  cases hn : s.length with
  | zero =>
    have hs : s = [] := List.eq_nil_of_length_eq_zero hn
    subst hs
    rfl
  | succ n =>
    rw [imgUrls, hn]
    cases hfind : listFind s imgTag with
    | none => simp only [imgUrlsF, hfind]
    | some i =>
      cases hq : listFind (s.drop (i + imgTag.length)) ['"'] with
      | none => simp only [imgUrlsF, hfind, hq]
      | some j =>
        simp only [imgUrlsF, hfind, hq]
        have hb := listFind_bound hfind
        have h10 : imgTag.length = 10 := rfl
        congr 1
        rw [imgUrls]
        apply imgUrlsF_irrel
        · simp only [List.length_drop]
          omega
        · exact le_rfl

theorem imgUrls_cons {s u : Str} {us : List Str} (h : imgUrls s = u :: us) :
    ∃ s', consumeHtmlLink s = (u, s') ∧ imgUrls s' = us := by
  rw [imgUrls_eq] at h
  cases hfind : listFind s imgTag with
  | none =>
    simp only [hfind] at h
    cases h
  | some i =>
    simp only [hfind] at h
    cases hq : listFind (s.drop (i + imgTag.length)) ['"'] with
    | none =>
      simp only [hq] at h
      cases h
    | some j =>
      simp only [hq] at h
      injection h with hu hus
      have h1 : i + imgTag.length ≤ s.length := listFind_bound hfind
      have h2 : j + 1 ≤ s.length - (i + imgTag.length) := by
        have := listFind_bound hq
        simpa using this
      have hij : i + imgTag.length + j ≤ s.length := by omega
      refine ⟨(s.drop (i + imgTag.length)).drop j, ?_, hus⟩
      have hpf : pyFind s imgTag = (i : Int) := by rw [pyFind, hfind]
      have hpf2 : pyFind (s.drop (i + imgTag.length)) ['"'] = (j : Int) := by
        rw [pyFind, hq]
      have hcast1 : (i : Int) + (imgTag.length : Int) = ((i + imgTag.length : Nat) : Int) := by
        push_cast
        ring
      have hcast2 : ((i + imgTag.length : Nat) : Int) + (j : Int)
          = ((i + imgTag.length + j : Nat) : Int) := by
        push_cast
        ring
      rw [consumeHtmlLink]
      rw [hpf, hcast1, pySlice_from s (i + imgTag.length) h1, hpf2, hcast2]
      rw [pySlice_take_drop s (i + imgTag.length) (i + imgTag.length + j) h1 hij]
      rw [take_add_drop, pySlice_from s (i + imgTag.length + j) hij, hu, List.drop_drop]

theorem parseLinksGo_spec : ∀ (ms : List (Str × Str × Str)) (html : Str) (c : Nat)
    (tr : Str), ms.length ≤ (imgUrls html).length →
    (parseLinksGo html c ms tr).1 = specCorrelate (imgUrls html) c ms tr := by
  intro ms
  induction ms with
  | nil => intro html c tr _; rfl
  | cons m ms ih =>
    intro html c tr h
    obtain ⟨pre, alt, url⟩ := m
    cases hu : imgUrls html with
    | nil => rw [hu] at h; simp at h
    | cons u us =>
      obtain ⟨s', hcons, hrest⟩ := imgUrls_cons hu
      rw [hu] at h
      simp only [parseLinksGo, specCorrelate, hcons]
      have hih := ih s' (c + 1) tr (by rw [hrest]; simpa using h)
      rw [hrest] at hih
      rw [hih]
      simp

/-- Claim C7: when the HTML body supplies at least as many image-source
URLs as the markdown has placeholders, `parseLinks` rewrites the i-th
placeholder (1-indexed, left to right) to `[displayName](url_i)` — the
display name being the alt text if non-empty and `Link i` otherwise, and
`url_i` the i-th URL popped from the document-order queue — and appends
the unmatched trailing markdown after the final replacement. -/
theorem parseLinks_positional (html msg : Str) (ms : List (Str × Str × Str)) (tr : Str)
    (hsplit : mdSplit msg = (ms, tr))
    (hurls : ms.length ≤ (imgUrls html).length) :
    (parseLinks html msg).1 = specCorrelate (imgUrls html) 1 ms tr := by
  have hpl : parseLinks html msg = parseLinksGo html 1 ms tr := by
    rw [parseLinks, hsplit]
  rw [hpl]
  exact parseLinksGo_spec ms html 1 tr hurls

theorem parseLinks_positional_witness :
    (parseLinks "<p><img src=\"X\"> <img src=\"Y\"></p>".data
        "![](upload://a) and ![cap](upload://b)".data).1
      = "[Link 1](X) and [cap](Y)".data := by
  have h := parseLinks_positional "<p><img src=\"X\"> <img src=\"Y\"></p>".data
      "![](upload://a) and ![cap](upload://b)".data
      [([], [], "upload://a".data), (" and ".data, "cap".data, "upload://b".data)] []
      (by decide) (by decide)
  rw [h]
  decide

theorem consumeHtmlLink_noimg {html : Str} (himg : listFind html imgTag = none)
    (hq : listFind html ['"'] = none) :
    consumeHtmlLink html = ([], html.drop (min 8 html.length)) := by
  have hpf : pyFind html imgTag = -1 := by rw [pyFind, himg]
  have hstart : (-1 : Int) + (imgTag.length : Int) = ((9 : Nat) : Int) := by decide
  have hslice9 : pySlice html ((9 : Nat) : Int) (html.length : Int)
      = html.drop (min 9 html.length) := by
    rw [pySlice, pyIdx_natCast, pyIdx_ofNat _ _ le_rfl, List.take_length]
  have hq9 : listFind (html.drop (min 9 html.length)) ['"'] = none :=
    listFind_none_drop _ hq
  have hpf2 : pyFind (html.drop (min 9 html.length)) ['"'] = -1 := by
    rw [pyFind, hq9]
  have hsum : ((9 : Nat) : Int) + (-1 : Int) = ((8 : Nat) : Int) := by decide
  have hurl : pySlice html ((9 : Nat) : Int) ((8 : Nat) : Int) = [] := by
    rw [pySlice, pyIdx_natCast, pyIdx_natCast]
    exact take_drop_nil (min_le_min (by omega) le_rfl)
  have hsnd : pySlice html ((8 : Nat) : Int) (html.length : Int)
      = html.drop (min 8 html.length) := by
    rw [pySlice, pyIdx_natCast, pyIdx_ofNat _ _ le_rfl, List.take_length]
  rw [consumeHtmlLink]
  rw [hpf, hstart, hslice9, hpf2, hsum, hurl, hsnd]

theorem parseLinksGo_noimg : ∀ (ms : List (Str × Str × Str)) (html : Str) (c : Nat)
    (tr : Str), listFind html imgTag = none → listFind html ['"'] = none →
    (parseLinksGo html c ms tr).1 = specCorrelate [] c ms tr := by
  intro ms
  induction ms with
  | nil => intro html c tr _ _; rfl
  | cons m ms ih =>
    intro html c tr himg hq
    obtain ⟨pre, alt, url⟩ := m
    have hc := consumeHtmlLink_noimg himg hq
    simp only [parseLinksGo, specCorrelate, hc]
    rw [ih (html.drop (min 8 html.length)) (c + 1) tr (listFind_none_drop _ himg)
      (listFind_none_drop _ hq)]
    simp

/-- Claim C1 counterexample: one HTML image source but two markdown
placeholders — the correlator does not raise any error; it returns
normally, rewriting the second placeholder with an empty URL:
a malformed, truncated replacement. -/
theorem parseLinks_underflow_cex :
    (imgUrls "<img src=\"X\">".data).length = 1
    ∧ (mdSplit "![a](u1) ![b](u2)".data).1.length = 2
    ∧ (parseLinks "<img src=\"X\">".data "![a](u1) ![b](u2)".data).1
        = "[a](X) [b]()".data := by decide

/-- Claim C1 (amended): exhausting the URL queue does not raise any
error.  In particular, against an HTML body with no image source (and no
quote character for the destructive scan to latch onto), `parseLinks`
returns normally and rewrites every placeholder exactly as correlating
against the empty queue: each link gets the empty string as its URL — a
malformed replacement — and the trailing markdown is still appended. -/
theorem parseLinks_underflow_no_error (html msg : Str)
    (ms : List (Str × Str × Str)) (tr : Str)
    (hsplit : mdSplit msg = (ms, tr))
    (himg : listFind html imgTag = none)
    (hq : listFind html ['"'] = none) :
    (parseLinks html msg).1 = specCorrelate [] 1 ms tr := by
  have hpl : parseLinks html msg = parseLinksGo html 1 ms tr := by
    rw [parseLinks, hsplit]
  rw [hpl]
  exact parseLinksGo_noimg ms html 1 tr himg hq

theorem parseLinks_underflow_no_error_witness :
    (parseLinks "<p>no images here</p>".data "![a](u)".data).1 = "[a]()".data := by
  have h := parseLinks_underflow_no_error "<p>no images here</p>".data "![a](u)".data
      [([], "a".data, "u".data)] [] (by decide) (by decide) (by decide)
  rw [h]
  decide
